import Mathlib

/-!
Verification of the fetch/stage/load pipeline
(`load_taxi_to_gcs_bq.py`, `load-yellow-taxi-data.py`).

The Python code is shallowly embedded: strings that the code slices and
splits are represented as `List Char` (and as `String` where the code only
passes them around); the object store, the filesystem and the network are
abstracted as explicit oracles passed to the embedded functions, one
outcome per loop attempt; functions that may raise return `Except`.
-/

namespace TaxiPipeline

/-! ## String helpers shared by the embedding -/

/-- Python `s.strip(chars)`: drop the matching characters from both ends. -/
def pyStrip (p : Char → Bool) (s : List Char) : List Char :=
  ((s.dropWhile p).reverse.dropWhile p).reverse

/-- The whitespace set of Python `str.strip()` (ASCII part; the inputs the
pipeline handles are ASCII). -/
def pyIsSpace (c : Char) : Bool :=
  c == ' ' || c == '\t' || c == '\n' || c == '\r' || c == '\x0b' || c == '\x0c'

/-- Python `s.strip()`. -/
def pyStripWs (s : List Char) : List Char := pyStrip pyIsSpace s

/-- Python `s.split(sep)` for a one-character separator: all segments,
empty segments kept, `n` separators give `n+1` segments. -/
def splitAll (c : Char) : List Char → List (List Char)
  | [] => [[]]
  | x :: xs =>
    if x = c then [] :: splitAll c xs
    else
      match splitAll c xs with
      | s :: ss => (x :: s) :: ss
      | [] => [[x]]

/-- Python `s.split(sep, 1)` when `sep` occurs: the part before the first
occurrence and everything after it. -/
def splitFirst (c : Char) (s : List Char) : List Char × List Char :=
  (s.takeWhile (fun x => x ≠ c), (s.dropWhile (fun x => x ≠ c)).drop 1)

/-- Decimal digits of a natural number, as characters. -/
def natToChars (n : Nat) : List Char :=
  if _h : n < 10 then [Char.ofNat ('0'.toNat + n)]
  else natToChars (n / 10) ++ [Char.ofNat ('0'.toNat + n % 10)]
decreasing_by exact Nat.div_lt_self (by omega) (by omega)

/-- Value of a run of decimal digits. -/
def digitsToNat (ds : List Char) : Nat :=
  ds.foldl (fun n c => 10 * n + (c.toNat - '0'.toNat)) 0

/-- Python `int(s)`: strip whitespace, optional sign, then decimal digits;
anything else raises `ValueError` (here: `none`).  Underscore digit
separators are not modelled; no input of this pipeline contains them. -/
def pyInt (s : List Char) : Option Int :=
  match pyStripWs s with
  | [] => none
  | c :: ds =>
    if c = '+' then
      if ds ≠ [] ∧ ds.all Char.isDigit then some (digitsToNat ds : Int) else none
    else if c = '-' then
      if ds ≠ [] ∧ ds.all Char.isDigit then some (-(digitsToNat ds : Int)) else none
    else
      if (c :: ds).all Char.isDigit then some (digitsToNat (c :: ds) : Int)
      else none

/-- Python `f"\x7bm:02d\x7d"` for the month values the code formats
(natural numbers): zero-pad to two digits. -/
def fmt2 (m : Nat) : List Char :=
  if m < 10 then '0' :: natToChars m else natToChars m

/-! ## Paths, keys and URIs (`upload_to_gcs`, lines 175-183) -/

/-- Python `os.path.basename`: the part of the path after the last slash. -/
def basename (p : String) : String :=
  String.mk ((p.data.reverse.takeWhile (fun c => c ≠ '/')).reverse)

/-- The object key built by `upload_to_gcs`: the stripped key-space
path joined to the file name, lines 179-180 of the source. -/
def blob_name (gcsPfx filename : String) : String :=
  let pfx := String.mk (pyStrip (fun c => c == '/') gcsPfx.data)
  if pfx ≠ "" then pfx ++ "/" ++ filename else filename

/-- The gs URI returned on staging success (lines 189 and 196). -/
def gsUri (bucketName bn : String) : String :=
  "gs://" ++ bucketName ++ "/" ++ bn

/-! ## Staging (`upload_to_gcs`, lines 171-205)

One loop attempt interacts with the object store three ways: the
pre-check `verify_gcs_upload`, the transfer `blob.upload_from_filename`,
and the post-upload `verify_gcs_upload`.  Each attempt of a run is
summarised by what the environment did on it. -/

inductive AttemptOutcome where
  /-- The pre-check found the key already present (line 187). -/
  | remoteExists
  /-- The pre-check itself raised; caught at line 199. -/
  | checkRaises
  /-- The pre-check found nothing and the transfer raised (line 191, caught
  at line 199). -/
  | uploadRaises
  /-- The transfer returned and the post-upload check verified the key
  (line 193). -/
  | verifiedAfterUpload
  /-- The transfer returned but the post-upload check found no key
  (line 198). -/
  | verifyFalse
  /-- The transfer returned and the post-upload check raised (caught at
  line 199). -/
  | verifyRaises
deriving DecidableEq, Repr

/-- Attempts on which an existence check verified the key as present. -/
def AttemptOutcome.verifies : AttemptOutcome → Bool
  | .remoteExists => true
  | .verifiedAfterUpload => true
  | _ => false

/-- Number of transfer (upload) calls the attempt performs. -/
def AttemptOutcome.transferCalls : AttemptOutcome → Nat
  | .remoteExists => 0
  | .checkRaises => 0
  | _ => 1

/-- Observable summary of one `upload_to_gcs` run. -/
structure StageResult where
  /-- The returned value: `some uri` on success, `none` on exhaustion. -/
  result : Option String
  /-- Total transfer (upload) calls performed. -/
  uploads : Nat
  /-- Loop iterations entered. -/
  attempts : Nat
  /-- Whether the local file was deleted. -/
  localDeleted : Bool
deriving DecidableEq, Repr

/-- The attempt loop of `upload_to_gcs` (lines 185-205).  `env a` is what
the object store and network do on attempt number `a`; `rmFails` is true
when the `os.remove` inside `safe_remove_local` fails (the file is then
kept but the exception is absorbed and the uri still returned); `n` is the
remaining attempt budget and `a` the current attempt index. -/
def stageAttempts (env : Nat → AttemptOutcome) (rmFails : Bool) (uri : String) :
    Nat → Nat → StageResult
  | 0, _ => { result := none, uploads := 0, attempts := 0, localDeleted := false }
  | n + 1, a =>
    let o := env a
    if o.verifies then
      { result := some uri, uploads := o.transferCalls, attempts := 1,
        localDeleted := !rmFails }
    else
      let r := stageAttempts env rmFails uri n (a + 1)
      { result := r.result, uploads := o.transferCalls + r.uploads,
        attempts := r.attempts + 1, localDeleted := r.localDeleted }

/-- `upload_to_gcs(file_path, bucket_name, gcs_prefix, max_retries)`
(lines 171-205): build the key and the uri, then run the attempt loop. -/
def upload_to_gcs (env : Nat → AttemptOutcome) (rmFails : Bool)
    (filePath bucketName gcsPfx : String) (maxRetries : Nat) : StageResult :=
  let bn := blob_name gcsPfx (basename filePath)
  stageAttempts env rmFails (gsUri bucketName bn) maxRetries 0

/-! ## Local cleanup (`safe_remove_local`, lines 141-146) -/

/-- `os.remove`: deletes the path from the filesystem, or raises. -/
def os_remove (fs : String → Bool) (raises : Bool) (p : String) :
    Except String (String → Bool) :=
  if raises then Except.error "OSError"
  else Except.ok (fun q => if q = p then false else fs q)

/-- `safe_remove_local(file_path)` (lines 141-146): delete the file when
the path is non-empty and the file exists; any exception is caught, logged
and absorbed.  Returns the resulting filesystem; the `Except` layer records
whether the function itself raises (it never does, see below). -/
def safe_remove_local (fs : String → Bool) (raises : Bool) (p : String) :
    Except String (String → Bool) :=
  let attempted : Except String (String → Bool) :=
    if p ≠ "" ∧ fs p = true then os_remove fs raises p else Except.ok fs
  match attempted with
  | Except.ok fsNew => Except.ok fsNew
  | Except.error _ => Except.ok fs

/-! ## Batching (`chunked`, lines 60-63) -/

/-- `chunked(lst, size)` (lines 60-63): successive slices
`lst[i:i+size]` for `i = 0, size, 2*size, ...`.  Python `range` with step
`0` raises `ValueError`; the only call site uses `size = 3` and every
claim assumes a positive size, so the `size = 0` case is mapped to `[]`. -/
def chunked {α : Type} : List α → Nat → List (List α)
  | [], _ => []
  | x :: xs, size =>
    if _h : size = 0 then []
    else (x :: xs).take size :: chunked ((x :: xs).drop size) size
termination_by l _ => l.length
decreasing_by
  simp only [List.length_drop, List.length_cons]
  omega

/-! ## Period expansion (`months_from_args`, lines 74-99) -/

/-- The `for p in parts` loop of `months_from_args` (lines 93-98):
left to right, parse each part as an int, raise at the first part that is
not a number or not in `[1, 12]`, else collect the zero-padded tokens. -/
def validateMonths : List (List Char) → Except String (List (List Char))
  | [] => Except.ok []
  | q :: rest =>
    match pyInt q with
    | some v =>
      if v < 1 ∨ 12 < v then Except.error "Invalid month"
      else
        match validateMonths rest with
        | Except.ok out => Except.ok (fmt2 v.toNat :: out)
        | Except.error msg => Except.error msg
    | none => Except.error "invalid literal for int"

/-- `months_from_args(months)` (lines 74-99): strip, then either expand a
dash range after validating `1 <= start <= end <= 12`, or split on commas,
strip the parts, drop empty parts and validate each month in `[1, 12]`.
Every returned token is zero-padded to two digits; a `ValueError` becomes
`Except.error`. -/
def months_from_args (months : List Char) : Except String (List (List Char)) :=
  let m := pyStripWs months
  if m.contains '-' then
    let p := splitFirst '-' m
    match pyInt p.1, pyInt p.2 with
    | some s, some e =>
      if s < 1 ∨ 12 < e ∨ e < s then
        Except.error "Invalid month range. Example: 1-6 or 01-06"
      else
        Except.ok ((List.range' s.toNat (e + 1 - s).toNat).map fmt2)
    | _, _ => Except.error "invalid literal for int"
  else
    validateMonths (((splitAll ',' m).map pyStripWs).filter (fun q => q ≠ []))

/-- Join parts with a comma: the shape of the list-form inputs of
`months_from_args` (`"1,2,3"` is `joinComma [['1'], ['2'], ['3']]`). -/
def joinComma : List (List Char) → List Char
  | [] => []
  | [p] => p
  | p :: rest => p ++ ',' :: joinComma rest

/-- True exactly on `Except.error`. -/
def isError {ε α : Type} : Except ε α → Bool
  | Except.error _ => true
  | Except.ok _ => false

/-! ## Partition field and schema (lines 65-71 and 207-367)

The schema fields are embedded with their name and type; the
human-readable column descriptions do not bear on any property and are
elided. -/

/-- Python `str.lower()` (ASCII inputs). -/
def pyToLower (s : String) : String := String.mk (s.data.map Char.toLower)

/-- One BigQuery schema field: column name and column type. -/
structure SchemaField where
  name : String
  fieldType : String
deriving DecidableEq, Repr

/-- `get_partition_field(taxi_type)` (lines 65-71). -/
def get_partition_field (taxiType : String) : Except String String :=
  let t := pyToLower taxiType
  if t = "yellow" then Except.ok "tpep_dropoff_datetime"
  else if t = "green" then Except.ok "lpep_dropoff_datetime"
  else Except.error "taxi_type must be yellow or green"

/-- `get_bq_schema(taxi_type)` (lines 207-367). -/
def get_bq_schema (taxiType : String) : Except String (List SchemaField) :=
  let t := pyToLower taxiType
  if t = "green" then Except.ok [
    ⟨"VendorID", "STRING"⟩,
    ⟨"lpep_pickup_datetime", "TIMESTAMP"⟩,
    ⟨"lpep_dropoff_datetime", "TIMESTAMP"⟩,
    ⟨"store_and_fwd_flag", "STRING"⟩,
    ⟨"RatecodeID", "STRING"⟩,
    ⟨"PULocationID", "STRING"⟩,
    ⟨"DOLocationID", "STRING"⟩,
    ⟨"passenger_count", "INT64"⟩,
    ⟨"trip_distance", "NUMERIC"⟩,
    ⟨"fare_amount", "NUMERIC"⟩,
    ⟨"extra", "NUMERIC"⟩,
    ⟨"mta_tax", "NUMERIC"⟩,
    ⟨"tip_amount", "NUMERIC"⟩,
    ⟨"tolls_amount", "NUMERIC"⟩,
    ⟨"ehail_fee", "NUMERIC"⟩,
    ⟨"improvement_surcharge", "NUMERIC"⟩,
    ⟨"total_amount", "NUMERIC"⟩,
    ⟨"payment_type", "INT64"⟩,
    ⟨"trip_type", "STRING"⟩,
    ⟨"congestion_surcharge", "NUMERIC"⟩]
  else if t = "yellow" then Except.ok [
    ⟨"VendorID", "STRING"⟩,
    ⟨"tpep_pickup_datetime", "TIMESTAMP"⟩,
    ⟨"tpep_dropoff_datetime", "TIMESTAMP"⟩,
    ⟨"passenger_count", "INT64"⟩,
    ⟨"trip_distance", "NUMERIC"⟩,
    ⟨"RatecodeID", "STRING"⟩,
    ⟨"store_and_fwd_flag", "STRING"⟩,
    ⟨"PULocationID", "STRING"⟩,
    ⟨"DOLocationID", "STRING"⟩,
    ⟨"payment_type", "INT64"⟩,
    ⟨"fare_amount", "NUMERIC"⟩,
    ⟨"extra", "NUMERIC"⟩,
    ⟨"mta_tax", "NUMERIC"⟩,
    ⟨"tip_amount", "NUMERIC"⟩,
    ⟨"tolls_amount", "NUMERIC"⟩,
    ⟨"improvement_surcharge", "NUMERIC"⟩,
    ⟨"total_amount", "NUMERIC"⟩,
    ⟨"congestion_surcharge", "NUMERIC"⟩]
  else Except.error "taxi_type must be yellow or green"

/-! ## Bulk-load order and the main control flow (lines 460-522)

`main` accumulates staged uris, exits with code 1 when none were staged
(line 506), and loads the uris in `sorted` order (line 511).  Python
`sorted` is the ascending stable sort; on a list of strings every correct
ascending sort produces the same output, so it is embedded as insertion
sort over the lexicographic order on `String`. -/

/-- The order in which the Bulk Loader processes staged uris:
`sorted(uploaded_uris)` at line 511. -/
def load_order (uris : List String) : List String :=
  List.insertionSort (fun a b => a ≤ b) uris

/-- The batch loop of `main` (lines 460-502): per batch of three months,
download each month (completion order does not affect the accumulated
set), skip the batch when nothing was downloaded, else upload the
downloaded files and accumulate the returned uris. -/
def staged_uris (months : List (List Char))
    (download : List Char → Option String)
    (upload : String → Option String) : List String :=
  (chunked months 3).foldl (fun acc batch =>
    let downloaded := batch.filterMap download
    if downloaded.isEmpty then acc
    else acc ++ downloaded.filterMap upload) []

/-- The process exit code of `main` (lines 504-522): `1` when no uris were
staged; otherwise run the loads over `load_order`; an uncaught load-job
exception terminates the interpreter with exit code 1; else `0`. -/
def main_exit_code (months : List (List Char))
    (download : List Char → Option String)
    (upload : String → Option String)
    (loadOk : String → Bool) : Nat :=
  let uris := staged_uris months download upload
  if uris.isEmpty then 1
  else if (load_order uris).all loadOk then 0 else 1

/-! ## Lemmas about the staging attempt loop -/

theorem stageAttempts_attempts_le (env : Nat → AttemptOutcome) (rmFails : Bool)
    (uri : String) : ∀ n a, (stageAttempts env rmFails uri n a).attempts ≤ n := by
  intro n
  induction n with
  | zero => intro a; simp [stageAttempts]
  | succ m ih =>
    intro a
    simp only [stageAttempts]
    split
    · simp
    · simpa using ih (a + 1)

theorem stageAttempts_exhausted (env : Nat → AttemptOutcome) (rmFails : Bool)
    (uri : String) :
    ∀ n a, (∀ i, i < n → (env (a + i)).verifies = false) →
      (stageAttempts env rmFails uri n a).result = none
        ∧ (stageAttempts env rmFails uri n a).localDeleted = false := by
  intro n
  induction n with
  | zero => intro a _; simp [stageAttempts]
  | succ m ih =>
    intro a h
    have h0 : (env a).verifies = false := by simpa using h 0 (by omega)
    have hrest : ∀ i, i < m → (env (a + 1 + i)).verifies = false := by
      intro i hi
      have := h (i + 1) (by omega)
      simpa [Nat.add_assoc, Nat.add_comm 1 i] using this
    simp only [stageAttempts, h0]
    simpa using ih (a + 1) hrest

theorem stageAttempts_localDeleted_iff (env : Nat → AttemptOutcome) (rmFails : Bool)
    (uri : String) :
    ∀ n a, (stageAttempts env rmFails uri n a).localDeleted = true ↔
      (rmFails = false ∧ ∃ i, i < n ∧ (env (a + i)).verifies = true) := by
  intro n
  induction n with
  | zero => intro a; simp [stageAttempts]
  | succ m ih =>
    intro a
    simp only [stageAttempts]
    by_cases h0 : (env a).verifies = true
    · simp only [h0, if_pos]
      constructor
      · intro hd
        refine ⟨by revert hd; cases rmFails <;> simp, 0, by omega, by simpa using h0⟩
      · rintro ⟨hrm, -⟩
        simp [hrm]
    · have h0f : (env a).verifies = false := by revert h0; cases (env a).verifies <;> simp
      simp only [h0f]
      simp only [Bool.false_eq_true, if_false]
      rw [ih (a + 1)]
      constructor
      · rintro ⟨hrm, i, hi, hv⟩
        exact ⟨hrm, i + 1, by omega, by simpa [Nat.add_assoc, Nat.add_comm 1 i] using hv⟩
      · rintro ⟨hrm, i, hi, hv⟩
        refine ⟨hrm, ?_⟩
        cases i with
        | zero => exact absurd (by simpa using hv) (by simp [h0f])
        | succ j =>
          exact ⟨j, by omega, by simpa [Nat.add_assoc, Nat.add_comm 1 j] using hv⟩

theorem stageAttempts_rm_independent (env : Nat → AttemptOutcome)
    (uri : String) (rm₁ rm₂ : Bool) :
    ∀ n a, (stageAttempts env rm₁ uri n a).result = (stageAttempts env rm₂ uri n a).result
      ∧ (stageAttempts env rm₁ uri n a).uploads = (stageAttempts env rm₂ uri n a).uploads := by
  intro n
  induction n with
  | zero => intro a; simp [stageAttempts]
  | succ m ih =>
    intro a
    simp only [stageAttempts]
    split
    · simp
    · simpa using ih (a + 1)

/-! ## Claim theorems: staging -/

/-- C1.  Idempotent staging: when the deterministic remote key already
exists in the object store (the first existence check answers yes) and the
local delete succeeds, `upload_to_gcs` performs zero transfer calls, still
returns the gs uri for that key, and deletes the local copy. -/
theorem idempotent_staging (env : Nat → AttemptOutcome)
    (filePath bucketName gcsPfx : String) (n : Nat)
    (h0 : env 0 = AttemptOutcome.remoteExists) (hn : 1 ≤ n) :
    (upload_to_gcs env false filePath bucketName gcsPfx n).result
        = some (gsUri bucketName (blob_name gcsPfx (basename filePath)))
      ∧ (upload_to_gcs env false filePath bucketName gcsPfx n).uploads = 0
      ∧ (upload_to_gcs env false filePath bucketName gcsPfx n).localDeleted = true := by
  obtain ⟨m, rfl⟩ : ∃ m, n = m + 1 := ⟨n - 1, by omega⟩
  simp [upload_to_gcs, stageAttempts, h0, AttemptOutcome.verifies,
    AttemptOutcome.transferCalls]

theorem idempotent_staging_witness :
    (upload_to_gcs (fun _ => AttemptOutcome.remoteExists) false
        "./f.csv.gz" "bkt" "raw" 3).result
        = some (gsUri "bkt" (blob_name "raw" (basename "./f.csv.gz")))
      ∧ (upload_to_gcs (fun _ => AttemptOutcome.remoteExists) false
        "./f.csv.gz" "bkt" "raw" 3).uploads = 0
      ∧ (upload_to_gcs (fun _ => AttemptOutcome.remoteExists) false
        "./f.csv.gz" "bkt" "raw" 3).localDeleted = true :=
  idempotent_staging (fun _ => AttemptOutcome.remoteExists)
    "./f.csv.gz" "bkt" "raw" 3 rfl (by omega)

/-- C2.  Retry bound and exhaustion: for every environment and every
attempt budget, `upload_to_gcs` enters at most `maxRetries` check+upload
cycles (it is a total function, hence always terminates), and when no
attempt verifies the key it returns `none` and does not delete the local
file. -/
theorem staging_retry_bound (env : Nat → AttemptOutcome) (rmFails : Bool)
    (filePath bucketName gcsPfx : String) (n : Nat) :
    (upload_to_gcs env rmFails filePath bucketName gcsPfx n).attempts ≤ n
      ∧ ((∀ i, i < n → (env i).verifies = false) →
          (upload_to_gcs env rmFails filePath bucketName gcsPfx n).result = none
            ∧ (upload_to_gcs env rmFails filePath bucketName gcsPfx n).localDeleted
                = false) := by
  refine ⟨stageAttempts_attempts_le env rmFails _ n 0, fun h => ?_⟩
  exact stageAttempts_exhausted env rmFails _ n 0 (by simpa using h)

theorem staging_retry_bound_witness :
    (upload_to_gcs (fun _ => AttemptOutcome.verifyFalse) false
        "./f.csv.gz" "bkt" "raw" 3).attempts ≤ 3
      ∧ ((∀ i, i < 3 → (AttemptOutcome.verifies
            ((fun _ => AttemptOutcome.verifyFalse) i)) = false) →
          (upload_to_gcs (fun _ => AttemptOutcome.verifyFalse) false
            "./f.csv.gz" "bkt" "raw" 3).result = none
            ∧ (upload_to_gcs (fun _ => AttemptOutcome.verifyFalse) false
                "./f.csv.gz" "bkt" "raw" 3).localDeleted = false) :=
  staging_retry_bound (fun _ => AttemptOutcome.verifyFalse) false
    "./f.csv.gz" "bkt" "raw" 3

/-- C3.  Local deletion iff verified: when the delete call itself works,
the local file is deleted exactly when some attempt verified the remote
key as present (the pre-check or the post-upload verification); and
whatever the delete call does, a deleted local file implies a verified
remote key.  In particular an attempt whose verification fails or whose
transfer raises deletes nothing. -/
theorem local_deletion_iff_verified (env : Nat → AttemptOutcome)
    (filePath bucketName gcsPfx : String) (n : Nat) :
    ((upload_to_gcs env false filePath bucketName gcsPfx n).localDeleted = true
        ↔ ∃ i, i < n ∧ (env i).verifies = true)
      ∧ ∀ rmFails,
        (upload_to_gcs env rmFails filePath bucketName gcsPfx n).localDeleted = true
          → ∃ i, i < n ∧ (env i).verifies = true := by
  constructor
  · rw [upload_to_gcs, stageAttempts_localDeleted_iff]
    simp
  · intro rmFails h
    rw [upload_to_gcs, stageAttempts_localDeleted_iff] at h
    simpa using h.2

/-- C10.  Cleanup totality: `safe_remove_local` never raises, for any
filesystem state, any behaviour of the delete call and any path (missing
file, empty path and failing delete included); and a failing delete does
not change the value or the transfer count returned by the staging
operation. -/
theorem cleanup_totality :
    (∀ (fs : String → Bool) (raises : Bool) (p : String),
        ∃ fsNew, safe_remove_local fs raises p = Except.ok fsNew)
      ∧ ∀ (env : Nat → AttemptOutcome) (rm₁ rm₂ : Bool)
          (filePath bucketName gcsPfx : String) (n : Nat),
          (upload_to_gcs env rm₁ filePath bucketName gcsPfx n).result
              = (upload_to_gcs env rm₂ filePath bucketName gcsPfx n).result
            ∧ (upload_to_gcs env rm₁ filePath bucketName gcsPfx n).uploads
              = (upload_to_gcs env rm₂ filePath bucketName gcsPfx n).uploads := by
  constructor
  · intro fs raises p
    by_cases h : p ≠ "" ∧ fs p = true
    · cases raises with
      | true => exact ⟨fs, by simp [safe_remove_local, os_remove, h]⟩
      | false =>
        exact ⟨fun q => if q = p then false else fs q,
          by simp [safe_remove_local, os_remove, h]⟩
    · exact ⟨fs, by simp [safe_remove_local, os_remove, h]⟩
  · intro env rm₁ rm₂ filePath bucketName gcsPfx n
    exact stageAttempts_rm_independent env _ rm₁ rm₂ n 0

/-! ## Lemmas about `chunked` -/

theorem chunked_flatten {α : Type} (size : Nat) (hs : size ≠ 0) :
    ∀ l : List α, (chunked l size).flatten = l := by
  suffices h : ∀ L (l : List α), l.length = L → (chunked l size).flatten = l from
    fun l => h l.length l rfl
  intro L
  induction L using Nat.strong_induction_on with
  | _ L ih =>
    intro l hL
    cases l with
    | nil => simp [chunked]
    | cons x xs =>
      rw [chunked]
      simp only [hs, dite_false, List.flatten_cons]
      have hxs : xs.length + 1 = L := by simpa using hL
      have hlt : ((x :: xs).drop size).length < L := by
        simp only [List.length_drop, List.length_cons]
        omega
      rw [ih _ hlt _ rfl, List.take_append_drop]

theorem chunked_length {α : Type} (size : Nat) (hs : size ≠ 0) :
    ∀ l : List α, (chunked l size).length = (l.length + size - 1) / size := by
  suffices h : ∀ L (l : List α), l.length = L →
      (chunked l size).length = (l.length + size - 1) / size from
    fun l => h l.length l rfl
  intro L
  induction L using Nat.strong_induction_on with
  | _ L ih =>
    intro l hL
    cases l with
    | nil =>
      simp only [chunked, List.length_nil]
      have : (0 + size - 1) / size = 0 := Nat.div_eq_of_lt (by omega)
      omega
    | cons x xs =>
      rw [chunked]
      simp only [hs, dite_false]
      have hxs : xs.length + 1 = L := by simpa using hL
      have hlt : ((x :: xs).drop size).length < L := by
        simp only [List.length_drop, List.length_cons]
        omega
      rw [List.length_cons, ih _ hlt _ rfl]
      simp only [List.length_drop, List.length_cons]
      rcases Nat.lt_or_ge (xs.length + 1) size with h | h
      · rw [show xs.length + 1 - size = 0 from by omega]
        have h2 : (0 + size - 1) / size = 0 := Nat.div_eq_of_lt (by omega)
        have h3 : (xs.length + 1 + size - 1) / size = 1 :=
          Nat.div_eq_of_lt_le (by omega) (by omega)
        omega
      · have h1 : xs.length + 1 - size + size - 1 = xs.length + 1 - 1 := by omega
        have h2 : xs.length + 1 + size - 1 = xs.length + 1 - 1 + size := by omega
        rw [h1, h2, Nat.add_div_right _ (by omega)]

/-- C4.  Batch partition completeness: for a positive batch size the
batches produced by `chunked` are contiguous slices in original order
whose concatenation is exactly the input (no overlap, no omission), and
there are exactly ceil(L/B) of them. -/
theorem batch_partition_completeness {α : Type} (l : List α) (B : Nat)
    (hB : 0 < B) :
    (chunked l B).flatten = l
      ∧ (chunked l B).length = (l.length + B - 1) / B :=
  ⟨chunked_flatten B (by omega) l, chunked_length B (by omega) l⟩

theorem batch_partition_completeness_witness :
    (chunked ["a", "b", "c", "d"] 3).flatten = ["a", "b", "c", "d"]
      ∧ (chunked ["a", "b", "c", "d"] 3).length
          = (["a", "b", "c", "d"].length + 3 - 1) / 3 :=
  batch_partition_completeness ["a", "b", "c", "d"] 3 (by omega)

/-- C5.  Deterministic load order: the Bulk Loader issues exactly one load
per staged uri (the loaded sequence is a permutation of the staged set),
sequentially in ascending sorted order, whatever order staging completed
in; and the staged set b, a, c is loaded in the order a, b, c. -/
theorem deterministic_load_order (uris : List String) :
    (load_order uris).Perm uris
      ∧ (load_order uris).Sorted (fun a b => a ≤ b)
      ∧ load_order ["b", "a", "c"] = ["a", "b", "c"] := by
  refine ⟨List.perm_insertionSort _ uris, List.sorted_insertionSort _ uris, ?_⟩
  have hab : ("a" : String) ≤ "b" := String.le_iff_toList_le.mpr (by decide)
  have hac : ("a" : String) ≤ "c" := String.le_iff_toList_le.mpr (by decide)
  have hbc : ("b" : String) ≤ "c" := String.le_iff_toList_le.mpr (by decide)
  have hsorted : List.Sorted (fun a b : String => a ≤ b) ["a", "b", "c"] := by
    rw [List.sorted_cons, List.sorted_cons]
    refine ⟨?_, ?_, List.sorted_singleton _⟩
    · intro b hb
      rcases List.mem_cons.mp hb with rfl | hb
      · exact hab
      · rcases List.mem_singleton.mp hb with rfl
        exact hac
    · intro b hb
      rcases List.mem_singleton.mp hb with rfl
      exact hbc
  refine List.eq_of_perm_of_sorted ?_ (List.sorted_insertionSort _ _) hsorted
  exact (List.perm_insertionSort _ _).trans (by decide)

/-! ## Lemmas about the batch loop of `main` -/

theorem staged_uris_nil_of_no_download (months : List (List Char))
    (download : List Char → Option String) (upload : String → Option String)
    (h : ∀ m, m ∈ months → download m = none) :
    staged_uris months download upload = [] := by
  have hb : ∀ b ∈ chunked months 3, ∀ x ∈ b, download x = none := by
    intro b hbmem x hx
    apply h
    have hxf : x ∈ (chunked months 3).flatten := List.mem_flatten.mpr ⟨b, hbmem, hx⟩
    rwa [chunked_flatten 3 (by omega)] at hxf
  unfold staged_uris
  generalize chunked months 3 = batches at hb
  induction batches with
  | nil => rfl
  | cons b bs ih =>
    rw [List.foldl_cons]
    have hdl : b.filterMap download = [] :=
      List.filterMap_eq_nil_iff.mpr (hb b (by simp))
    simp only [hdl, List.isEmpty_nil, if_true]
    exact ih (fun q hq x hx => hb q (by simp [hq]) x hx)

/-- C7.  Process exit signal: the run exits with code zero exactly when at
least one uri was staged and every issued load succeeds; in particular it
exits non-zero when zero items were retrieved (every download failed), or
when zero were staged, and an individual load failure aborts the run with
a non-zero code rather than being merely tallied. -/
theorem process_exit_signal (months : List (List Char))
    (download : List Char → Option String) (upload : String → Option String)
    (loadOk : String → Bool) :
    (main_exit_code months download upload loadOk = 0 ↔
        staged_uris months download upload ≠ []
          ∧ (load_order (staged_uris months download upload)).all loadOk = true)
      ∧ ((∀ m, m ∈ months → download m = none) →
          main_exit_code months download upload loadOk = 1)
      ∧ (staged_uris months download upload = [] →
          main_exit_code months download upload loadOk = 1) := by
  refine ⟨?_, ?_, ?_⟩
  · unfold main_exit_code
    by_cases he : staged_uris months download upload = []
    · simp [he]
    · rw [if_neg (by simpa [List.isEmpty_iff] using he)]
      by_cases hall : (load_order (staged_uris months download upload)).all loadOk
          = true
      · simp [hall, he]
      · simp [hall, he]
  · intro h
    have he := staged_uris_nil_of_no_download months download upload h
    unfold main_exit_code
    simp [he]
  · intro he
    unfold main_exit_code
    simp [he]

theorem process_exit_signal_witness :
    (main_exit_code [['0', '1']] (fun _ => none) (fun _ => none) (fun _ => true)
        = 0 ↔
        staged_uris [['0', '1']] (fun _ => none) (fun _ => none) ≠ []
          ∧ (load_order (staged_uris [['0', '1']] (fun _ => none) (fun _ => none))).all
              (fun _ => true) = true)
      ∧ ((∀ m, m ∈ [['0', '1']] → (fun _ => (none : Option String)) m = none) →
          main_exit_code [['0', '1']] (fun _ => none) (fun _ => none)
            (fun _ => true) = 1)
      ∧ (staged_uris [['0', '1']] (fun _ => none) (fun _ => none) = [] →
          main_exit_code [['0', '1']] (fun _ => none) (fun _ => none)
            (fun _ => true) = 1) :=
  process_exit_signal [['0', '1']] (fun _ => none) (fun _ => none) (fun _ => true)

/-! ## Lemmas about characters, stripping and splitting -/

theorem dropWhile_eq_self_of_all_not {α : Type} (p : α → Bool) (l : List α)
    (h : ∀ x ∈ l, p x = false) : l.dropWhile p = l := by
  cases l with
  | nil => rfl
  | cons x xs => simp [List.dropWhile_cons, h x (by simp)]

theorem dropWhile_eq_nil_of_all {α : Type} (p : α → Bool) :
    ∀ l : List α, (∀ x ∈ l, p x = true) → l.dropWhile p = [] := by
  intro l
  induction l with
  | nil => intro _; rfl
  | cons x xs ih =>
    intro h
    rw [List.dropWhile_cons, if_pos (by simp [h x (by simp)])]
    exact ih (fun y hy => h y (by simp [hy]))

theorem pyStrip_eq_self (p : Char → Bool) (l : List Char)
    (h : ∀ x ∈ l, p x = false) : pyStrip p l = l := by
  unfold pyStrip
  rw [dropWhile_eq_self_of_all_not p l h,
    dropWhile_eq_self_of_all_not p l.reverse (fun x hx => h x (by simpa using hx)),
    List.reverse_reverse]

theorem pyStrip_eq_nil (p : Char → Bool) (l : List Char)
    (h : ∀ x ∈ l, p x = true) : pyStrip p l = [] := by
  unfold pyStrip
  rw [dropWhile_eq_nil_of_all p l h]
  rfl

theorem mem_of_mem_pyStrip {p : Char → Bool} {l : List Char} {x : Char}
    (h : x ∈ pyStrip p l) : x ∈ l := by
  unfold pyStrip at h
  rw [List.mem_reverse] at h
  have h1 := (List.dropWhile_sublist p).mem h
  rw [List.mem_reverse] at h1
  exact (List.dropWhile_sublist p).mem h1

theorem splitAll_ne_nil (c : Char) : ∀ s : List Char, splitAll c s ≠ [] := by
  intro s
  induction s with
  | nil => simp [splitAll]
  | cons x xs ih =>
    rw [splitAll]
    split
    · simp
    · cases hs : splitAll c xs with
      | nil => simp
      | cons q qs => simp [hs]

theorem mem_splitAll (c : Char) :
    ∀ (s p : List Char), p ∈ splitAll c s → ∀ x ∈ p, x ∈ s ∧ x ≠ c := by
  intro s
  induction s with
  | nil =>
    intro p hp x hx
    simp only [splitAll, List.mem_singleton] at hp
    subst hp
    simp at hx
  | cons y ys ih =>
    intro p hp x hx
    rw [splitAll] at hp
    by_cases hy : y = c
    · rw [if_pos hy] at hp
      rcases List.mem_cons.mp hp with rfl | hp
      · simp at hx
      · have := ih p hp x hx
        exact ⟨by simp [this.1], this.2⟩
    · rw [if_neg hy] at hp
      cases hs : splitAll c ys with
      | nil => exact absurd hs (splitAll_ne_nil c ys)
      | cons q qs =>
        rw [hs] at hp
        rcases List.mem_cons.mp hp with rfl | hp
        · rcases List.mem_cons.mp hx with rfl | hx
          · exact ⟨by simp, hy⟩
          · have := ih q (by simp [hs]) x hx
            exact ⟨by simp [this.1], this.2⟩
        · have := ih p (by simp [hs, hp]) x hx
          exact ⟨by simp [this.1], this.2⟩

theorem takeWhile_append_of_all {α : Type} (p : α → Bool) :
    ∀ (A B : List α), (∀ x ∈ A, p x = true) →
      (A ++ B).takeWhile p = A ++ B.takeWhile p := by
  intro A
  induction A with
  | nil => intro B _; rfl
  | cons a as ih =>
    intro B h
    rw [List.cons_append, List.takeWhile_cons, if_pos (by simp [h a (by simp)]),
      List.cons_append, ih B (fun y hy => h y (by simp [hy]))]

theorem dropWhile_append_of_all {α : Type} (p : α → Bool) :
    ∀ (A B : List α), (∀ x ∈ A, p x = true) →
      (A ++ B).dropWhile p = B.dropWhile p := by
  intro A
  induction A with
  | nil => intro B _; rfl
  | cons a as ih =>
    intro B h
    rw [List.cons_append, List.dropWhile_cons, if_pos (by simp [h a (by simp)])]
    exact ih B (fun y hy => h y (by simp [hy]))

/-! ## Lemmas about digits and number parsing -/

theorem digit_char_spec : ∀ d, d < 10 →
    (Char.ofNat ('0'.toNat + d)).isDigit = true
      ∧ (Char.ofNat ('0'.toNat + d)).toNat = '0'.toNat + d := by decide

theorem isDigit_ne_comma (x : Char) (h : x.isDigit = true) : x ≠ ',' := by
  rintro rfl
  exact absurd h (by decide)

theorem isDigit_ne_dash (x : Char) (h : x.isDigit = true) : x ≠ '-' := by
  rintro rfl
  exact absurd h (by decide)

theorem isDigit_ne_plus (x : Char) (h : x.isDigit = true) : x ≠ '+' := by
  rintro rfl
  exact absurd h (by decide)

theorem isDigit_not_space (x : Char) (h : x.isDigit = true) :
    pyIsSpace x = false := by
  have h1 : x ≠ ' ' := by rintro rfl; exact absurd h (by decide)
  have h2 : x ≠ '\t' := by rintro rfl; exact absurd h (by decide)
  have h3 : x ≠ '\n' := by rintro rfl; exact absurd h (by decide)
  have h4 : x ≠ '\r' := by rintro rfl; exact absurd h (by decide)
  have h5 : x ≠ '\x0b' := by rintro rfl; exact absurd h (by decide)
  have h6 : x ≠ '\x0c' := by rintro rfl; exact absurd h (by decide)
  simp [pyIsSpace, h1, h2, h3, h4, h5, h6]

theorem natToChars_ne_nil (n : Nat) : natToChars n ≠ [] := by
  rw [natToChars]
  split
  · simp
  · simp

theorem natToChars_all_digit :
    ∀ n, ∀ x ∈ natToChars n, x.isDigit = true := by
  intro n
  induction n using Nat.strong_induction_on with
  | _ n ih =>
    intro x hx
    rw [natToChars] at hx
    by_cases h : n < 10
    · rw [dif_pos h] at hx
      rcases List.mem_singleton.mp hx with rfl
      exact (digit_char_spec n h).1
    · rw [dif_neg h] at hx
      rcases List.mem_append.mp hx with hx | hx
      · exact ih (n / 10) (Nat.div_lt_self (by omega) (by omega)) x hx
      · rcases List.mem_singleton.mp hx with rfl
        exact (digit_char_spec (n % 10) (Nat.mod_lt _ (by omega))).1

theorem digitsToNat_append_one (ds : List Char) (c : Char) :
    digitsToNat (ds ++ [c]) = 10 * digitsToNat ds + (c.toNat - '0'.toNat) := by
  unfold digitsToNat
  rw [List.foldl_append]
  rfl

theorem digitsToNat_natToChars : ∀ n, digitsToNat (natToChars n) = n := by
  intro n
  induction n using Nat.strong_induction_on with
  | _ n ih =>
    rw [natToChars]
    by_cases h : n < 10
    · rw [dif_pos h]
      have hc := (digit_char_spec n h).2
      unfold digitsToNat
      simp only [List.foldl_cons, List.foldl_nil, hc]
      omega
    · rw [dif_neg h]
      rw [digitsToNat_append_one,
        ih (n / 10) (Nat.div_lt_self (by omega) (by omega))]
      have hc := (digit_char_spec (n % 10) (Nat.mod_lt _ (by omega))).2
      omega

theorem pyInt_digits (ds : List Char) (hne : ds ≠ [])
    (hall : ∀ x ∈ ds, x.isDigit = true) :
    pyInt ds = some (digitsToNat ds : Int) := by
  have hstrip : pyStripWs ds = ds :=
    pyStrip_eq_self _ _ (fun x hx => isDigit_not_space x (hall x hx))
  unfold pyInt
  rw [hstrip]
  cases ds with
  | nil => exact absurd rfl hne
  | cons c cs =>
    have hc : c.isDigit = true := hall c (by simp)
    dsimp only
    rw [if_neg (isDigit_ne_plus c hc), if_neg (isDigit_ne_dash c hc),
      if_pos (by simpa using fun x hx => hall x hx)]

theorem pyInt_natToChars (n : Nat) : pyInt (natToChars n) = some (n : Int) := by
  rw [pyInt_digits (natToChars n) (natToChars_ne_nil n) (natToChars_all_digit n),
    digitsToNat_natToChars]

theorem fmt2_ne_nil (m : Nat) : fmt2 m ≠ [] := by
  unfold fmt2
  split
  · simp
  · exact natToChars_ne_nil m

theorem fmt2_all_digit (m : Nat) : ∀ x ∈ fmt2 m, x.isDigit = true := by
  unfold fmt2
  split
  · intro x hx
    rcases List.mem_cons.mp hx with rfl | hx
    · decide
    · exact natToChars_all_digit m x hx
  · exact natToChars_all_digit m

theorem digitsToNat_fmt2 (m : Nat) : digitsToNat (fmt2 m) = m := by
  unfold fmt2
  split
  · unfold digitsToNat
    rw [List.foldl_cons]
    have hz : (10 * 0 + ('0'.toNat - '0'.toNat)) = 0 := by decide
    rw [hz]
    exact digitsToNat_natToChars m
  · exact digitsToNat_natToChars m

theorem pyInt_fmt2 (m : Nat) : pyInt (fmt2 m) = some (m : Int) := by
  rw [pyInt_digits (fmt2 m) (fmt2_ne_nil m) (fmt2_all_digit m), digitsToNat_fmt2]

/-! ## Lemmas about the dash-range branch of `months_from_args` -/

theorem splitFirst_append (c : Char) (A B : List Char)
    (hA : ∀ x ∈ A, x ≠ c) : splitFirst c (A ++ c :: B) = (A, B) := by
  unfold splitFirst
  have hAp : ∀ x ∈ A, (fun x => decide ¬(x = c)) x = true := by
    intro x hx
    simpa using hA x hx
  have hc : (fun x => decide ¬(x = c)) c = false := by simp
  rw [takeWhile_append_of_all _ A (c :: B) hAp,
    dropWhile_append_of_all _ A (c :: B) hAp,
    List.takeWhile_cons, List.dropWhile_cons]
  simp

theorem months_from_args_range_core (S E : List Char) (s e : Nat)
    (hS : ∀ x ∈ S, x.isDigit = true) (hSne : S ≠ []) (hSv : digitsToNat S = s)
    (hE : ∀ x ∈ E, x.isDigit = true) (hEne : E ≠ []) (hEv : digitsToNat E = e)
    (h1 : 1 ≤ s) (hse : s ≤ e) (h12 : e ≤ 12) :
    months_from_args (S ++ '-' :: E)
      = Except.ok ((List.range' s (e + 1 - s)).map fmt2) := by
  have hm : pyStripWs (S ++ '-' :: E) = S ++ '-' :: E := by
    apply pyStrip_eq_self
    intro x hx
    rcases List.mem_append.mp hx with hx | hx
    · exact isDigit_not_space x (hS x hx)
    · rcases List.mem_cons.mp hx with rfl | hx
      · decide
      · exact isDigit_not_space x (hE x hx)
  have hcontains : (S ++ '-' :: E).contains '-' = true := by
    have hmem : '-' ∈ S ++ '-' :: E := List.mem_append.mpr (Or.inr (by simp))
    simp [hmem]
  have hsplit : splitFirst '-' (S ++ '-' :: E) = (S, E) :=
    splitFirst_append '-' S E (fun x hx => isDigit_ne_dash x (hS x hx))
  have hiS : pyInt S = some (s : Int) := by
    rw [pyInt_digits S hSne hS, hSv]
  have hiE : pyInt E = some (e : Int) := by
    rw [pyInt_digits E hEne hE, hEv]
  simp only [months_from_args, hm, hcontains, if_true, hsplit, hiS, hiE]
  rw [if_neg (by omega)]
  have hts : ((s : Int)).toNat = s := Int.toNat_natCast s
  have hte : ((e : Int) + 1 - (s : Int)).toNat = e + 1 - s := by omega
  rw [hts, hte]

theorem months_from_args_range_error_core (S E : List Char) (s e : Nat)
    (hS : ∀ x ∈ S, x.isDigit = true) (hSne : S ≠ []) (hSv : digitsToNat S = s)
    (hE : ∀ x ∈ E, x.isDigit = true) (hEne : E ≠ []) (hEv : digitsToNat E = e)
    (hbad : s = 0 ∨ 12 < e ∨ e < s) :
    isError (months_from_args (S ++ '-' :: E)) = true := by
  have hm : pyStripWs (S ++ '-' :: E) = S ++ '-' :: E := by
    apply pyStrip_eq_self
    intro x hx
    rcases List.mem_append.mp hx with hx | hx
    · exact isDigit_not_space x (hS x hx)
    · rcases List.mem_cons.mp hx with rfl | hx
      · decide
      · exact isDigit_not_space x (hE x hx)
  have hcontains : (S ++ '-' :: E).contains '-' = true := by
    have hmem : '-' ∈ S ++ '-' :: E := List.mem_append.mpr (Or.inr (by simp))
    simp [hmem]
  have hsplit : splitFirst '-' (S ++ '-' :: E) = (S, E) :=
    splitFirst_append '-' S E (fun x hx => isDigit_ne_dash x (hS x hx))
  have hiS : pyInt S = some (s : Int) := by
    rw [pyInt_digits S hSne hS, hSv]
  have hiE : pyInt E = some (e : Int) := by
    rw [pyInt_digits E hEne hE, hEv]
  simp only [months_from_args, hm, hcontains, if_true, hsplit, hiS, hiE]
  rw [if_pos (by omega)]
  rfl

/-! ## Lemmas about the comma-list branch of `months_from_args` -/

theorem splitAll_no_sep (c : Char) :
    ∀ p : List Char, (∀ x ∈ p, x ≠ c) → splitAll c p = [p] := by
  intro p
  induction p with
  | nil => intro _; rfl
  | cons x xs ih =>
    intro h
    rw [splitAll, if_neg (h x (by simp)), ih (fun y hy => h y (by simp [hy]))]

theorem splitAll_append_cons (c : Char) (rest : List Char) :
    ∀ p : List Char, (∀ x ∈ p, x ≠ c) →
      splitAll c (p ++ c :: rest) = p :: splitAll c rest := by
  intro p
  induction p with
  | nil => simp [splitAll]
  | cons x xs ih =>
    intro h
    rw [List.cons_append, splitAll, if_neg (h x (by simp)),
      ih (fun y hy => h y (by simp [hy]))]

theorem mem_joinComma :
    ∀ (parts : List (List Char)) (x : Char),
      x ∈ joinComma parts → (∃ p ∈ parts, x ∈ p) ∨ x = ',' := by
  intro parts
  induction parts with
  | nil =>
    intro x hx
    simp [joinComma] at hx
  | cons p rest ih =>
    intro x hx
    cases rest with
    | nil => exact Or.inl ⟨p, by simp, by simpa [joinComma] using hx⟩
    | cons q rest2 =>
      rw [show joinComma (p :: q :: rest2) = p ++ ',' :: joinComma (q :: rest2)
        from rfl] at hx
      rcases List.mem_append.mp hx with hx | hx
      · exact Or.inl ⟨p, by simp, hx⟩
      · rcases List.mem_cons.mp hx with rfl | hx
        · exact Or.inr rfl
        · rcases ih x hx with ⟨q', hq', hx'⟩ | rfl
          · exact Or.inl ⟨q', by simp [hq'], hx'⟩
          · exact Or.inr rfl

theorem splitAll_joinComma :
    ∀ parts : List (List Char), parts ≠ [] →
      (∀ p ∈ parts, ∀ x ∈ p, x ≠ ',') →
      splitAll ',' (joinComma parts) = parts := by
  intro parts
  induction parts with
  | nil => intro h _; exact absurd rfl h
  | cons p rest ih =>
    intro _ h
    cases rest with
    | nil =>
      rw [joinComma]
      exact splitAll_no_sep ',' p (h p (by simp))
    | cons q rest2 =>
      rw [show joinComma (p :: q :: rest2) = p ++ ',' :: joinComma (q :: rest2)
          from rfl,
        splitAll_append_cons ',' _ p (h p (by simp)),
        ih (by simp) (fun p' hp' x hx => h p' (by simp [hp']) x hx)]

theorem validateMonths_ok :
    ∀ pm : List (List Char × Nat),
      (∀ x ∈ pm, (∀ y ∈ x.1, y.isDigit = true) ∧ x.1 ≠ []
          ∧ digitsToNat x.1 = x.2 ∧ 1 ≤ x.2 ∧ x.2 ≤ 12) →
      validateMonths (pm.map Prod.fst)
        = Except.ok (pm.map (fun x => fmt2 x.2)) := by
  intro pm
  induction pm with
  | nil => intro _; rfl
  | cons x rest ih =>
    intro h
    obtain ⟨hd, hne, hv, h1, h12⟩ := h x (by simp)
    rw [List.map_cons, validateMonths, pyInt_digits x.1 hne hd, hv]
    dsimp only
    rw [if_neg (by omega), ih (fun y hy => h y (by simp [hy]))]
    rw [Int.toNat_natCast, List.map_cons]

theorem validateMonths_isError :
    ∀ parts : List (List Char),
      (∀ p ∈ parts, (∀ y ∈ p, y.isDigit = true) ∧ p ≠ []) →
      (∃ p ∈ parts, digitsToNat p = 0 ∨ 12 < digitsToNat p) →
      isError (validateMonths parts) = true := by
  intro parts
  induction parts with
  | nil =>
    intro _ h
    simp at h
  | cons q rest ih =>
    intro hall hbad
    obtain ⟨hd, hne⟩ := hall q (by simp)
    rw [validateMonths, pyInt_digits q hne hd]
    dsimp only
    by_cases hq : (digitsToNat q : Int) < 1 ∨ 12 < (digitsToNat q : Int)
    · rw [if_pos hq]
      rfl
    · rw [if_neg hq]
      have hrest : ∃ p ∈ rest, digitsToNat p = 0 ∨ 12 < digitsToNat p := by
        rcases hbad with ⟨p, hp, hbadp⟩
        rcases List.mem_cons.mp hp with rfl | hp
        · exfalso
          omega
        · exact ⟨p, hp, hbadp⟩
      have hih := ih (fun p hp => hall p (by simp [hp])) hrest
      cases hvm : validateMonths rest with
      | ok out =>
        rw [hvm] at hih
        simp [isError] at hih
      | error msg => rfl

theorem months_from_args_list_core (pm : List (List Char × Nat))
    (hgood : ∀ x ∈ pm, (∀ y ∈ x.1, y.isDigit = true) ∧ x.1 ≠ []
        ∧ digitsToNat x.1 = x.2 ∧ 1 ≤ x.2 ∧ x.2 ≤ 12) :
    months_from_args (joinComma (pm.map Prod.fst))
      = Except.ok (pm.map (fun x => fmt2 x.2)) := by
  have hdigits : ∀ p ∈ pm.map Prod.fst, ∀ y ∈ p, y.isDigit = true := by
    intro p hp y hy
    rcases List.mem_map.mp hp with ⟨x, hx, rfl⟩
    exact (hgood x hx).1 y hy
  cases pm with
  | nil => rfl
  | cons x0 rest =>
    have hm : pyStripWs (joinComma ((x0 :: rest).map Prod.fst))
        = joinComma ((x0 :: rest).map Prod.fst) := by
      apply pyStrip_eq_self
      intro y hy
      rcases mem_joinComma _ y hy with ⟨p, hp, hyp⟩ | rfl
      · exact isDigit_not_space y (hdigits p hp y hyp)
      · decide
    have hcontains : (joinComma ((x0 :: rest).map Prod.fst)).contains '-'
        = false := by
      have hnmem : ¬('-' ∈ joinComma ((x0 :: rest).map Prod.fst)) := by
        intro hmem
        rcases mem_joinComma _ '-' hmem with ⟨p, hp, hyp⟩ | hcm
        · exact absurd rfl (isDigit_ne_dash '-' (hdigits p hp '-' hyp))
        · exact absurd hcm (by decide)
      simpa using hnmem
    have hsplit : splitAll ',' (joinComma ((x0 :: rest).map Prod.fst))
        = (x0 :: rest).map Prod.fst :=
      splitAll_joinComma _ (by simp)
        (fun p hp y hy => isDigit_ne_comma y (hdigits p hp y hy))
    have hmapstrip : ((x0 :: rest).map Prod.fst).map pyStripWs
        = (x0 :: rest).map Prod.fst := by
      have := List.map_congr_left
        (f := pyStripWs) (g := id) (l := (x0 :: rest).map Prod.fst)
        (fun p hp => pyStrip_eq_self _ p
          (fun y hy => isDigit_not_space y (hdigits p hp y hy)))
      simpa using this
    have hfilter : (((x0 :: rest).map Prod.fst).filter (fun q => q ≠ [])
        : List (List Char)) = (x0 :: rest).map Prod.fst := by
      rw [List.filter_eq_self]
      intro p hp
      rcases List.mem_map.mp hp with ⟨x, hx, rfl⟩
      simpa using (hgood x hx).2.1
    simp only [months_from_args, hm, hcontains, Bool.false_eq_true, if_false,
      hsplit, hmapstrip, hfilter]
    exact validateMonths_ok _ hgood

theorem months_from_args_list_error_core (pm : List (List Char × Nat))
    (hgood : ∀ x ∈ pm, (∀ y ∈ x.1, y.isDigit = true) ∧ x.1 ≠ []
        ∧ digitsToNat x.1 = x.2)
    (hbad : ∃ x ∈ pm, x.2 = 0 ∨ 12 < x.2) :
    isError (months_from_args (joinComma (pm.map Prod.fst))) = true := by
  have hdigits : ∀ p ∈ pm.map Prod.fst, ∀ y ∈ p, y.isDigit = true := by
    intro p hp y hy
    rcases List.mem_map.mp hp with ⟨x, hx, rfl⟩
    exact (hgood x hx).1 y hy
  cases pm with
  | nil =>
    simp at hbad
  | cons x0 rest =>
    have hm : pyStripWs (joinComma ((x0 :: rest).map Prod.fst))
        = joinComma ((x0 :: rest).map Prod.fst) := by
      apply pyStrip_eq_self
      intro y hy
      rcases mem_joinComma _ y hy with ⟨p, hp, hyp⟩ | rfl
      · exact isDigit_not_space y (hdigits p hp y hyp)
      · decide
    have hcontains : (joinComma ((x0 :: rest).map Prod.fst)).contains '-'
        = false := by
      have hnmem : ¬('-' ∈ joinComma ((x0 :: rest).map Prod.fst)) := by
        intro hmem
        rcases mem_joinComma _ '-' hmem with ⟨p, hp, hyp⟩ | hcm
        · exact absurd rfl (isDigit_ne_dash '-' (hdigits p hp '-' hyp))
        · exact absurd hcm (by decide)
      simpa using hnmem
    have hsplit : splitAll ',' (joinComma ((x0 :: rest).map Prod.fst))
        = (x0 :: rest).map Prod.fst :=
      splitAll_joinComma _ (by simp)
        (fun p hp y hy => isDigit_ne_comma y (hdigits p hp y hy))
    have hmapstrip : ((x0 :: rest).map Prod.fst).map pyStripWs
        = (x0 :: rest).map Prod.fst := by
      have := List.map_congr_left
        (f := pyStripWs) (g := id) (l := (x0 :: rest).map Prod.fst)
        (fun p hp => pyStrip_eq_self _ p
          (fun y hy => isDigit_not_space y (hdigits p hp y hy)))
      simpa using this
    have hfilter : (((x0 :: rest).map Prod.fst).filter (fun q => q ≠ [])
        : List (List Char)) = (x0 :: rest).map Prod.fst := by
      rw [List.filter_eq_self]
      intro p hp
      rcases List.mem_map.mp hp with ⟨x, hx, rfl⟩
      simpa using (hgood x hx).2.1
    simp only [months_from_args, hm, hcontains, Bool.false_eq_true, if_false,
      hsplit, hmapstrip, hfilter]
    apply validateMonths_isError
    · intro p hp
      rcases List.mem_map.mp hp with ⟨x, hx, rfl⟩
      exact ⟨(hgood x hx).1, (hgood x hx).2.1⟩
    · rcases hbad with ⟨x, hx, hxbad⟩
      refine ⟨x.1, List.mem_map.mpr ⟨x, hx, rfl⟩, ?_⟩
      rw [(hgood x hx).2.2]
      exact hxbad

/-- C6.  Period-expression expansion: dash ranges, zero-padded or not,
expand to the zero-padded month tokens from start to end; a range whose
start is below 1, whose end exceeds 12 or whose start exceeds its end is
an error; comma lists, zero-padded or not, expand to the zero-padded
tokens of their months; a listed month outside 1..12 is an error. -/
theorem period_expression_expansion :
    (∀ s e : Nat, 1 ≤ s → s ≤ e → e ≤ 12 →
        months_from_args (natToChars s ++ '-' :: natToChars e)
            = Except.ok ((List.range' s (e + 1 - s)).map fmt2)
          ∧ months_from_args (fmt2 s ++ '-' :: fmt2 e)
            = Except.ok ((List.range' s (e + 1 - s)).map fmt2))
      ∧ (∀ s e : Nat, s = 0 ∨ 12 < e ∨ e < s →
          isError (months_from_args (natToChars s ++ '-' :: natToChars e))
            = true)
      ∧ (∀ ms : List Nat, (∀ m ∈ ms, 1 ≤ m ∧ m ≤ 12) →
          months_from_args (joinComma (ms.map natToChars))
              = Except.ok (ms.map fmt2)
            ∧ months_from_args (joinComma (ms.map fmt2))
              = Except.ok (ms.map fmt2))
      ∧ (∀ (ms : List Nat) (m : Nat), m ∈ ms → m = 0 ∨ 12 < m →
          isError (months_from_args (joinComma (ms.map natToChars)))
            = true) := by
  refine ⟨?_, ?_, ?_, ?_⟩
  · intro s e h1 hse h12
    constructor
    · exact months_from_args_range_core (natToChars s) (natToChars e) s e
        (natToChars_all_digit s) (natToChars_ne_nil s) (digitsToNat_natToChars s)
        (natToChars_all_digit e) (natToChars_ne_nil e) (digitsToNat_natToChars e)
        h1 hse h12
    · exact months_from_args_range_core (fmt2 s) (fmt2 e) s e
        (fmt2_all_digit s) (fmt2_ne_nil s) (digitsToNat_fmt2 s)
        (fmt2_all_digit e) (fmt2_ne_nil e) (digitsToNat_fmt2 e)
        h1 hse h12
  · intro s e hbad
    exact months_from_args_range_error_core (natToChars s) (natToChars e) s e
      (natToChars_all_digit s) (natToChars_ne_nil s) (digitsToNat_natToChars s)
      (natToChars_all_digit e) (natToChars_ne_nil e) (digitsToNat_natToChars e)
      hbad
  · intro ms hms
    constructor
    · have h := months_from_args_list_core (ms.map (fun m => (natToChars m, m)))
        (by
          intro x hx
          rcases List.mem_map.mp hx with ⟨m, hm, rfl⟩
          exact ⟨natToChars_all_digit m, natToChars_ne_nil m,
            digitsToNat_natToChars m, (hms m hm).1, (hms m hm).2⟩)
      simpa [List.map_map, Function.comp] using h
    · have h := months_from_args_list_core (ms.map (fun m => (fmt2 m, m)))
        (by
          intro x hx
          rcases List.mem_map.mp hx with ⟨m, hm, rfl⟩
          exact ⟨fmt2_all_digit m, fmt2_ne_nil m,
            digitsToNat_fmt2 m, (hms m hm).1, (hms m hm).2⟩)
      simpa [List.map_map, Function.comp] using h
  · intro ms m hmem hbad
    have h := months_from_args_list_error_core (ms.map (fun k => (natToChars k, k)))
      (by
        intro x hx
        rcases List.mem_map.mp hx with ⟨k, hk, rfl⟩
        exact ⟨natToChars_all_digit k, natToChars_ne_nil k,
          digitsToNat_natToChars k⟩)
      ⟨(natToChars m, m), List.mem_map.mpr ⟨m, hmem, rfl⟩, hbad⟩
    simpa [List.map_map, Function.comp] using h

/-- C9.  Empty period expression: an input of only whitespace and commas,
with no dash (the empty string included), is not an error: it expands to
the empty month list; and a run over zero months stages nothing and exits
through the zero-staged failure path with code 1. -/
theorem empty_period_expression :
    (∀ cs : List Char, (∀ c ∈ cs, c = ',' ∨ pyIsSpace c = true) →
        months_from_args cs = Except.ok [])
      ∧ (∀ (download : List Char → Option String)
          (upload : String → Option String) (loadOk : String → Bool),
          main_exit_code [] download upload loadOk = 1) := by
  constructor
  · intro cs h
    have hm : ∀ x ∈ pyStripWs cs, x = ',' ∨ pyIsSpace x = true :=
      fun x hx => h x (mem_of_mem_pyStrip hx)
    have hcontains : (pyStripWs cs).contains '-' = false := by
      have hnmem : ¬('-' ∈ pyStripWs cs) := by
        intro hmem
        rcases hm '-' hmem with hc | hc
        · exact absurd hc (by decide)
        · exact absurd hc (by decide)
      simpa using hnmem
    have hfilter : (((splitAll ',' (pyStripWs cs)).map pyStripWs).filter
        (fun q => q ≠ []) : List (List Char)) = [] := by
      rw [List.filter_eq_nil_iff]
      intro p hp
      rcases List.mem_map.mp hp with ⟨q, hq, rfl⟩
      have hq' : ∀ x ∈ q, pyIsSpace x = true := by
        intro x hx
        have hmem := mem_splitAll ',' (pyStripWs cs) q hq x hx
        rcases hm x hmem.1 with rfl | hs
        · exact absurd rfl hmem.2
        · exact hs
      simp [show pyStripWs q = [] from pyStrip_eq_nil pyIsSpace q hq']
    simp only [months_from_args, hcontains, Bool.false_eq_true, if_false,
      hfilter]
    rfl
  · intro download upload loadOk
    simp [main_exit_code, staged_uris, chunked]

/-- C8.  Partition-field/schema consistency: for each valid dataset kind
the partition field returned by `get_partition_field` is the name of a
TIMESTAMP field present in the schema returned by `get_bq_schema` for the
same kind, so every load job partitions on a declared schema column. -/
theorem partition_field_in_schema :
    (∃ fields, get_bq_schema "yellow" = Except.ok fields
        ∧ get_partition_field "yellow" = Except.ok "tpep_dropoff_datetime"
        ∧ SchemaField.mk "tpep_dropoff_datetime" "TIMESTAMP" ∈ fields)
      ∧ (∃ fields, get_bq_schema "green" = Except.ok fields
        ∧ get_partition_field "green" = Except.ok "lpep_dropoff_datetime"
        ∧ SchemaField.mk "lpep_dropoff_datetime" "TIMESTAMP" ∈ fields) := by
  refine ⟨⟨_, rfl, rfl, ?_⟩, ⟨_, rfl, rfl, ?_⟩⟩ <;> decide

end TaxiPipeline
